import Mathlib

/-!
Verification of the storey-loss-function (SLF) pipeline of `tools/slf.py`.

The embedding models the two components of the pipeline:

* the Loader's legacy flat-table path (`provided_slf`, the in-place rewrite of
  the three loss columns), and
* the Interpolation-Table Builder (`get_interpolation_functions`), both its
  structured-variant path and its legacy path.

Python dictionaries are modelled as insertion-ordered association lists,
floating-point numbers as rationals, and fallible Python operations
(`max` on an empty sequence, `int(...)` on a non-digit, dictionary `KeyError`,
division by zero) as `Except`-valued functions.  The builder's in-place
mutation of the raw table (the clamping of negative Non-directional loss
samples) is modelled by returning the post-call raw table alongside the
output, i.e. by explicit state passing.
-/

/-- The Python exceptions the modelled code can raise. -/
inductive PyErr where
  | zeroDivisionError
  | keyError
  | valueError
  | indexError
  | typeError
  | attributeError
deriving DecidableEq, Repr

/-- Python's built-in `max` over a sequence: `ValueError` on an empty
sequence, otherwise the left fold of the binary maximum. -/
def pyMax : List ℚ → Except PyErr ℚ
  | [] => .error .valueError
  | x :: rest => .ok (rest.foldl max x)

/-- Python's `/` on numbers: raises `ZeroDivisionError` on a zero
denominator, otherwise exact division. -/
def pyDiv (a b : ℚ) : Except PyErr ℚ :=
  if b = 0 then .error .zeroDivisionError else .ok (a / b)

/-- `int(i[-1])` on a Python string `i`: `IndexError` on the empty string,
`ValueError` when the last character is not a digit, otherwise the digit's
value. -/
def lastCharKey (s : String) : Except PyErr Nat :=
  match s.data.getLast? with
  | none => .error .indexError
  | some c => if c.isDigit then .ok (c.toNat - 48) else .error .valueError

/-- Python dictionary assignment `d[k] = v` on an insertion-ordered
association list: overwrite in place when the key exists, append otherwise. -/
def insertKey {α β : Type} [DecidableEq α] : List (α × β) → α → β → List (α × β)
  | [], k, v => [(k, v)]
  | (k', v') :: rest, k, v =>
      if k' = k then (k, v) :: rest else (k', v') :: insertKey rest k v

/-- Python dictionary lookup `d[k]` (as an `Option`; callers turn `none`
into `KeyError` where the code would raise). -/
def lookupKey {α β : Type} [DecidableEq α] : List (α × β) → α → Option β
  | [], _ => none
  | (k', v') :: rest, k => if k' = k then some v' else lookupKey rest k

/-- `loss[loss < 0] = 0.0`: clamp every negative sample of a loss series
to zero. -/
def clampLoss (loss : List ℚ) : List ℚ :=
  loss.map (fun y => if y < 0 then 0 else y)

/-- One leaf of the structured raw table: the paired `edp` and `loss`
sample sequences of one story/floor entry. -/
structure Leaf where
  edp : List ℚ
  loss : List ℚ
deriving DecidableEq, Repr

/-- The value stored under one demand-parameter key of the structured raw
table: a story map for the Non-directional class, a direction map (each
direction holding a story map) for directional classes. -/
inductive EDPVal where
  | stories (g : List (String × Leaf))
  | dirs (g : List (String × List (String × Leaf)))
deriving DecidableEq, Repr

/-- The structured raw loss table: directionality class to
demand-parameter key to `EDPVal`. -/
abbrev DF := List (String × List (String × EDPVal))

/-- The data an `interp1d` interpolant is built from: the demand sequence
and the (already scaled) loss sequence. -/
structure Interp where
  xs : List ℚ
  ys : List ℚ
deriving DecidableEq, Repr

/-- The value stored under one demand-parameter key of the output table:
integer-keyed story map, or direction map of integer-keyed story maps. -/
inductive OutVal where
  | stories (g : List (Nat × Interp))
  | dirs (g : List (String × List (Nat × Interp)))
deriving DecidableEq, Repr

/-- The builder's output: directionality class to demand-parameter key to
`OutVal`. -/
abbrev OutTable := List (String × List (String × OutVal))

/-- Sum of `max(loss)` over the entries of one story map, as accumulated
by the builder's total-cost loop. -/
def sumMaxima : List (String × Leaf) → Except PyErr ℚ
  | [] => .ok 0
  | (_, leaf) :: rest =>
      match pyMax leaf.loss with
      | .error e => .error e
      | .ok m =>
          match sumMaxima rest with
          | .error e => .error e
          | .ok s => .ok (m + s)

/-- Sum of the per-story maxima over a given list of direction names,
looked up in a direction map (`KeyError` when a name is absent). -/
def dirSum (g : List (String × List (String × Leaf))) :
    List String → Except PyErr ℚ
  | [] => .ok 0
  | x :: rest =>
      match lookupKey g x with
      | none => .error .keyError
      | some stories =>
          match sumMaxima stories with
          | .error e => .error e
          | .ok a =>
              match dirSum g rest with
              | .error e => .error e
              | .ok b => .ok (a + b)

/-- Contribution of one (directionality class, demand-parameter key) value
to `total_comp_cost`: all stories for `"Non-directional"`; for any other
class the direction set is `["dir1", "dir2"]` when `flag3d` and `["dir1"]`
otherwise. -/
def classCost (flag3d : Bool) (d : String) (v : EDPVal) : Except PyErr ℚ :=
  if d = "Non-directional" then
    match v with
    | .stories g => sumMaxima g
    | .dirs _ => .error .typeError
  else
    match v with
    | .dirs g => dirSum g (if flag3d then ["dir1", "dir2"] else ["dir1"])
    | .stories _ => .error .typeError

/-- Sum of `classCost` over the demand-parameter keys of one class. -/
def keysCost (flag3d : Bool) (d : String) :
    List (String × EDPVal) → Except PyErr ℚ
  | [] => .ok 0
  | (_, v) :: rest =>
      match classCost flag3d d v with
      | .error e => .error e
      | .ok a =>
          match keysCost flag3d d rest with
          | .error e => .error e
          | .ok b => .ok (a + b)

/-- `total_comp_cost`: the aggregation loop of
`get_interpolation_functions` over the whole structured table. -/
def totalCompCost (flag3d : Bool) : DF → Except PyErr ℚ
  | [] => .ok 0
  | (d, keys) :: rest =>
      match keysCost flag3d d keys with
      | .error e => .error e
      | .ok a =>
          match totalCompCost flag3d rest with
          | .error e => .error e
          | .ok b => .ok (a + b)

/-- The normalization factor: `repl_cost / total_comp_cost` when
`normalize` is set (Python division, so a zero total raises
`ZeroDivisionError`), and the literal `1.` otherwise. -/
def computeFactor (normalize : Bool) (repl total : ℚ) : Except PyErr ℚ :=
  if normalize then pyDiv repl total else .ok 1

/-- `interp1d(np.insert(edp, 0, 0), np.insert(loss, 0, 0) * factor)`:
the data of one stored interpolant — a zero prepended to both sequences,
the loss sequence scaled elementwise by `factor`. -/
def mkInterp (factor : ℚ) (edp loss : List ℚ) : Interp :=
  ⟨0 :: edp, (0 :: loss).map (fun y => y * factor)⟩

/-- The Non-directional construction loop over one story map.  For each
entry, in source order: clamp the negative loss samples in place (this is
the mutation of the raw table, reflected in the second component of the
result), build the interpolant from the clamped series, and store it under
`int(i[-1])`. -/
def buildNonDirStories (factor : ℚ) (acc : List (Nat × Interp)) :
    List (String × Leaf) →
      Except PyErr (List (Nat × Interp) × List (String × Leaf))
  | [] => .ok (acc, [])
  | (i, leaf) :: rest =>
      match lastCharKey i with
      | .error e => .error e
      | .ok k =>
          match buildNonDirStories factor
              (insertKey acc k (mkInterp factor leaf.edp (clampLoss leaf.loss)))
              rest with
          | .error e => .error e
          | .ok (out, rest') =>
              .ok (out, (i, { leaf with loss := clampLoss leaf.loss }) :: rest')

/-- The directional construction loop over one story map: no clamping, no
mutation; store the interpolant under `int(i[-1])`. -/
def buildDirStories (factor : ℚ) (acc : List (Nat × Interp)) :
    List (String × Leaf) → Except PyErr (List (Nat × Interp))
  | [] => .ok acc
  | (i, leaf) :: rest =>
      match lastCharKey i with
      | .error e => .error e
      | .ok k =>
          buildDirStories factor
            (insertKey acc k (mkInterp factor leaf.edp leaf.loss)) rest

/-- The directional construction loop over a direction map: every
direction key present in the raw table is processed. -/
def buildDirs (factor : ℚ) :
    List (String × List (String × Leaf)) →
      Except PyErr (List (String × List (Nat × Interp)))
  | [] => .ok []
  | (x, stories) :: rest =>
      match buildDirStories factor [] stories with
      | .error e => .error e
      | .ok out =>
          match buildDirs factor rest with
          | .error e => .error e
          | .ok rest' => .ok ((x, out) :: rest')

/-- The construction loop over the demand-parameter keys of one class;
returns the output values together with the class's post-call raw data. -/
def buildKeys (factor : ℚ) (d : String) :
    List (String × EDPVal) →
      Except PyErr (List (String × OutVal) × List (String × EDPVal))
  | [] => .ok ([], [])
  | (key, v) :: rest =>
      if d = "Non-directional" then
        match v with
        | .stories g =>
            match buildNonDirStories factor [] g with
            | .error e => .error e
            | .ok (out, g') =>
                match buildKeys factor d rest with
                | .error e => .error e
                | .ok (outRest, rest') =>
                    .ok ((key, .stories out) :: outRest,
                         (key, .stories g') :: rest')
        | .dirs _ => .error .typeError
      else
        match v with
        | .dirs g =>
            match buildDirs factor g with
            | .error e => .error e
            | .ok out =>
                match buildKeys factor d rest with
                | .error e => .error e
                | .ok (outRest, rest') =>
                    .ok ((key, .dirs out) :: outRest, (key, v) :: rest')
        | .stories _ => .error .typeError

/-- The construction phase over the whole structured table; returns the
output table together with the post-call raw table. -/
def buildTable (factor : ℚ) : DF → Except PyErr (OutTable × DF)
  | [] => .ok ([], [])
  | (d, keys) :: rest =>
      match buildKeys factor d keys with
      | .error e => .error e
      | .ok (outKeys, keys') =>
          match buildTable factor rest with
          | .error e => .error e
          | .ok (outRest, rest') =>
              .ok ((d, outKeys) :: outRest, (d, keys') :: rest')

/-- `get_interpolation_functions` on the structured variant: aggregate
`total_comp_cost`, derive the factor, then run the construction phase.
The second component of a successful result is the raw table as left
behind by the call (the builder clamps Non-directional losses in place). -/
def get_interpolation_functions (flag3d normalize : Bool) (repl_cost : ℚ)
    (df : DF) : Except PyErr (OutTable × DF) :=
  match totalCompCost flag3d df with
  | .error e => .error e
  | .ok total =>
      match computeFactor normalize repl_cost total with
      | .error e => .error e
      | .ok factor => buildTable factor df

/-- Split a character list on a separator character (the pieces between
occurrences of the separator, like Python's `str.split`). -/
def splitChar (sep : Char) : List Char → List (List Char)
  | [] => [[]]
  | c :: rest =>
      match splitChar sep rest with
      | [] => [[]]
      | g :: gs => if c = sep then [] :: g :: gs else (c :: g) :: gs

/-- Join character-list pieces with an underscore between them. -/
def joinUnderscore : List (List Char) → List Char
  | [] => []
  | [g] => g
  | g :: gs => g ++ '_' :: joinUnderscore gs

/-- `key.startswith("E_")`. -/
def startsWithE (s : String) : Bool :=
  match s.data with
  | 'E' :: '_' :: _ => true
  | _ => false

/-- `re.search('_(.*)_', key).group(1)`: the text between the first and the
last underscore of `key` (the regex is greedy); `AttributeError` (a `None`
match, then `.group` on `None`) when `key` has fewer than two
underscores. -/
def componentType (key : String) : Except PyErr String :=
  let parts := splitChar '_' key.data
  if parts.length ≤ 2 then .error .attributeError
  else .ok ⟨joinUnderscore ((parts.drop 1).dropLast)⟩

/-- Python's `s[-n:]`: the last `n` characters of `s` (all of `s` when it
is shorter than `n`). -/
def strTakeRight (s : String) (n : Nat) : String :=
  ⟨s.data.drop (s.data.length - n)⟩

/-- The legacy branch of `get_interpolation_functions`: for every column
named `E_...`, prepend a zero to the loss series, extract the component
type, locate the matching EDP column (trying the composite
`"<suffix>_<component>"` key first, then the bare suffix), prepend a zero
to it, and store the interpolant under the composite key. -/
def legacyBuild (df : List (String × List ℚ)) (acc : List (String × Interp)) :
    List (String × List ℚ) → Except PyErr (List (String × Interp))
  | [] => .ok acc
  | (key, col) :: rest =>
      if startsWithE key then
        match componentType key with
        | .error e => .error e
        | .ok comp =>
            let suffix := strTakeRight key 3
            match (match lookupKey df (suffix ++ "_" ++ comp) with
                   | some c => some c
                   | none => lookupKey df suffix) with
            | none => .error .keyError
            | some edpCol =>
                legacyBuild df
                  (insertKey acc (suffix ++ "_" ++ comp)
                    ⟨(0 : ℚ) :: edpCol, (0 : ℚ) :: col⟩) rest
      else legacyBuild df acc rest

/-- `get_interpolation_functions` on the legacy flat-table variant. -/
def legacy_interpolation (df : List (String × List ℚ)) :
    Except PyErr (List (String × Interp)) :=
  legacyBuild df [] df

/-- The legacy branch of `provided_slf`: given the three raw loss series
(`E_NS_PFA`, `E_S_IDR`, `E_NS_IDR`) and the story count, rewrite each
series as `series * (max(series)/max_total) / max(series) * (1/nstories)`
where `max_total` is the sum of the three maxima.  The elementwise
arithmetic never raises (array arithmetic), so the only failure is `max`
of an empty series; results are returned in the order
(`E_NS_PFA`, `E_S_IDR`, `E_NS_IDR`). -/
def provided_slf_legacy (nstories : ℚ) (pfa_ns s_idr ns_idr : List ℚ) :
    Except PyErr (List ℚ × List ℚ × List ℚ) :=
  match pyMax pfa_ns with
  | .error e => .error e
  | .ok maxPfa =>
      match pyMax s_idr with
      | .error e => .error e
      | .ok maxS =>
          match pyMax ns_idr with
          | .error e => .error e
          | .ok maxNs =>
              .ok (pfa_ns.map (fun v =>
                      v * (maxPfa / (maxS + maxNs + maxPfa)) / maxPfa *
                        (1 / nstories)),
                   s_idr.map (fun v =>
                      v * (maxS / (maxS + maxNs + maxPfa)) / maxS *
                        (1 / nstories)),
                   ns_idr.map (fun v =>
                      v * (maxNs / (maxS + maxNs + maxPfa)) / maxNs *
                        (1 / nstories)))

/-- Piecewise-linear interpolation over paired samples, with `interp1d`'s
default bounds behavior: a query outside the sampled demand range is an
error. -/
def linInterp : List (ℚ × ℚ) → ℚ → Except PyErr ℚ
  | [], _ => .error .valueError
  | [(x0, y0)], x => if x = x0 then .ok y0 else .error .valueError
  | (x0, y0) :: (x1, y1) :: rest, x =>
      if x < x0 then .error .valueError
      else if x ≤ x1 then .ok (y0 + (y1 - y0) * ((x - x0) / (x1 - x0)))
      else linInterp ((x1, y1) :: rest) x

/-- Evaluate a stored interpolant at a demand value. -/
def interpEval (itp : Interp) (x : ℚ) : Except PyErr ℚ :=
  linInterp (itp.xs.zip itp.ys) x

/-- The interpolants stored under one output value. -/
def outValLeaves : OutVal → List Interp
  | .stories g => g.map Prod.snd
  | .dirs g => g.flatMap (fun p => p.2.map Prod.snd)

/-- All interpolants stored in an output table. -/
def leavesOf (t : OutTable) : List Interp :=
  t.flatMap (fun p => p.2.flatMap (fun q => outValLeaves q.2))

/-- The interpolants stored under the `"Non-directional"` classes of an
output table. -/
def nonDirLeavesOf (t : OutTable) : List Interp :=
  t.flatMap (fun p =>
    if p.1 = "Non-directional" then p.2.flatMap (fun q => outValLeaves q.2)
    else [])

/-- An interpolant whose domain starts at demand 0 with loss 0. -/
def anchoredInterp (itp : Interp) : Prop :=
  itp.xs.head? = some 0 ∧ itp.ys.head? = some 0

/-- All loss samples of a leaf are non-negative. -/
def leafNonneg (leaf : Leaf) : Bool :=
  leaf.loss.all (fun y => decide (0 ≤ y))

/-- All loss samples under one raw value are non-negative (only story
maps are inspected; direction maps are never clamped by the builder). -/
def edpValNonneg : EDPVal → Bool
  | .stories g => g.all (fun q => leafNonneg q.2)
  | .dirs _ => true

/-- Every Non-directional loss sample of a raw table is non-negative. -/
def dfNonDirNonneg (df : DF) : Bool :=
  df.all (fun p =>
    if p.1 = "Non-directional" then p.2.all (fun q => edpValNonneg q.2)
    else true)

/-- A directional raw table holding a single `-5` loss sample. -/
def dfC1 : DF :=
  [("Directional",
    [("IDR", EDPVal.dirs [("dir1", [("story1", ⟨[1/10], [-5]⟩)])])])]

/-- The builder's output on `dfC1`: the stored loss sequence keeps the
raw `-5` sample. -/
def outC1 : OutTable :=
  [("Directional",
    [("IDR", OutVal.dirs [("dir1", [(1, ⟨[0, 1/10], [0, -5]⟩)])])])]

/-- A structured raw table whose total component cost is zero. -/
def dfC2 : DF :=
  [("Non-directional",
    [("PFA_NS", EDPVal.stories [("story0", ⟨[1/10], [0]⟩)])])]

/-- A Non-directional raw table holding a single `-5` loss sample. -/
def dfC3 : DF :=
  [("Non-directional",
    [("PFA_NS", EDPVal.stories [("story0", ⟨[1/10], [-5]⟩)])])]

/-- `dfC3` as left behind by the builder: the `-5` clamped to `0` in
place. -/
def dfC3' : DF :=
  [("Non-directional",
    [("PFA_NS", EDPVal.stories [("story0", ⟨[1/10], [0]⟩)])])]

/-- The builder's output on `dfC3`. -/
def outC3 : OutTable :=
  [("Non-directional",
    [("PFA_NS", OutVal.stories [(0, ⟨[0, 1/10], [0, 0]⟩)])])]

/-- The spec's two-story Non-directional normalization scenario:
`edp = [0.01, 0.02]`, `loss = [100, 200]` on each story. -/
def dfC4 : DF :=
  [("Non-directional",
    [("PFA_NS", EDPVal.stories
      [("story0", ⟨[1/100, 2/100], [100, 200]⟩),
       ("story1", ⟨[1/100, 2/100], [100, 200]⟩)])])]

/-- The interpolant data stored for each story of `dfC4` under
`normalize = true`, `replacement_cost = 1000`: losses scaled by `5/2`. -/
def itpC4 : Interp :=
  ⟨[0, 1/100, 2/100], [0, 250, 500]⟩

/-- The builder's output on `dfC4` with normalization. -/
def outC4 : OutTable :=
  [("Non-directional",
    [("PFA_NS", OutVal.stories [(0, itpC4), (1, itpC4)])])]

/-- Looking a key up right after inserting it finds the inserted value. -/
theorem lookupKey_insertKey_self {α β : Type} [DecidableEq α]
    (l : List (α × β)) (k : α) (v : β) :
    lookupKey (insertKey l k v) k = some v := by
  induction l with
  | nil => simp [insertKey, lookupKey]
  | cons hd tl ih =>
      rcases hd with ⟨k', v'⟩
      by_cases hk : k' = k
      · subst hk
        simp [insertKey, lookupKey]
      · simp [insertKey, lookupKey, hk, ih]

/-- Inserting one key leaves every other key's lookup unchanged. -/
theorem lookupKey_insertKey_ne {α β : Type} [DecidableEq α]
    (l : List (α × β)) (k k2 : α) (v : β) (h : k2 ≠ k) :
    lookupKey (insertKey l k v) k2 = lookupKey l k2 := by
  induction l with
  | nil => simp [insertKey, lookupKey, Ne.symm h]
  | cons hd tl ih =>
      rcases hd with ⟨k', v'⟩
      by_cases hk : k' = k
      · subst hk
        simp [insertKey, lookupKey, Ne.symm h]
      · by_cases hk2 : k' = k2
        · subst hk2
          simp [insertKey, lookupKey, hk]
        · simp [insertKey, lookupKey, hk, hk2, ih]

/-- Every entry of `insertKey l k v` is the inserted pair or an entry of
`l`. -/
theorem mem_insertKey {α β : Type} [DecidableEq α]
    {l : List (α × β)} {k : α} {v : β} {p : α × β}
    (h : p ∈ insertKey l k v) : p = (k, v) ∨ p ∈ l := by
  induction l with
  | nil => simpa [insertKey] using h
  | cons hd tl ih =>
      rcases hd with ⟨k', v'⟩
      by_cases hk : k' = k
      · subst hk
        simp only [insertKey, if_pos rfl] at h
        rcases List.mem_cons.mp h with h1 | h1
        · exact Or.inl h1
        · exact Or.inr (List.mem_cons_of_mem _ h1)
      · simp only [insertKey, if_neg hk] at h
        rcases List.mem_cons.mp h with h1 | h1
        · exact Or.inr (by simp [h1])
        · rcases ih h1 with h2 | h2
          · exact Or.inl h2
          · exact Or.inr (List.mem_cons_of_mem _ h2)

/-- Every sample of a clamped loss series is non-negative. -/
theorem clampLoss_nonneg {l : List ℚ} {y : ℚ} (h : y ∈ clampLoss l) :
    0 ≤ y := by
  rcases List.mem_map.mp h with ⟨z, _, hz⟩
  by_cases hneg : z < 0
  · simp only [← hz, if_pos hneg]
    exact le_refl 0
  · simp only [← hz, if_neg hneg]
    exact le_of_not_lt hneg

/-- Clamping a series of non-negative samples is the identity. -/
theorem clampLoss_of_nonneg {l : List ℚ} (h : ∀ y ∈ l, 0 ≤ y) :
    clampLoss l = l := by
  induction l with
  | nil => rfl
  | cons hd tl ih =>
      have h0 : ¬ hd < 0 := not_lt.mpr (h hd (by simp))
      simp only [clampLoss, List.map_cons, if_neg h0]
      exact congrArg _ (ih fun y hy => h y (List.mem_cons_of_mem _ hy))

/-- Claim C6: whenever `normalize = false` the scale factor is exactly 1,
irrespective of the total component cost or the replacement cost; in
particular the builder's result does not depend on the replacement cost at
all in that mode. -/
theorem C6_factor_one_without_normalize (flag3d : Bool) (r r2 t : ℚ)
    (df : DF) :
    computeFactor false r t = .ok 1 ∧
    get_interpolation_functions flag3d false r df =
      get_interpolation_functions flag3d false r2 df := by
  refine ⟨rfl, ?_⟩
  unfold get_interpolation_functions
  cases totalCompCost flag3d df with
  | error e => rfl
  | ok t' => rfl

/-- Claim C2 (code bug): with `normalize` requested and a structured table
whose total component cost is zero, the builder performs the division
unguarded and the `ZeroDivisionError` propagates; no distinct
normalization error is reported. -/
theorem C2_zero_total_unguarded_division :
    get_interpolation_functions true true 1 dfC2 =
      .error .zeroDivisionError := by
  have h1 : lastCharKey "story0" = .ok 0 := rfl
  simp [get_interpolation_functions, dfC2, totalCompCost, keysCost,
    classCost, sumMaxima, pyMax, computeFactor, pyDiv, h1]

/-- Claim C10: two identifiers in the same group that share their final
digit collapse to the same integer key; the later-iterated identifier's
interpolant silently overwrites the earlier one, in both the directional
and the Non-directional construction loops, so two input leaves yield a
single output leaf. -/
theorem C10_last_digit_collision (factor : ℚ) (lA lB : Leaf) :
    buildDirStories factor [] [("story2", lA), ("story12", lB)] =
      .ok [(2, mkInterp factor lB.edp lB.loss)] ∧
    buildNonDirStories factor [] [("story2", lA), ("story12", lB)] =
      .ok ([(2, mkInterp factor lB.edp (clampLoss lB.loss))],
           [("story2", { lA with loss := clampLoss lA.loss }),
            ("story12", { lB with loss := clampLoss lB.loss })]) := by
  constructor
  · rfl
  · rfl

/-- Claim C1, counterexample: on a directional-class input holding the
raw loss sample `-5`, the builder stores an interpolant whose loss
sequence still contains `-5` — the clamping step is skipped for
directional classes, so a stored interpolant is built from a negative raw
sample. -/
theorem C1_counterexample :
    get_interpolation_functions false false 1 dfC1 = .ok (outC1, dfC1) ∧
    ∃ itp ∈ leavesOf outC1, ∃ y ∈ itp.ys, y < 0 := by
  constructor
  · have h1 : lastCharKey "story1" = .ok 1 := rfl
    simp [get_interpolation_functions, dfC1, outC1, totalCompCost,
      keysCost, classCost, dirSum, sumMaxima, pyMax, lookupKey,
      computeFactor, buildTable, buildKeys, buildDirs, buildDirStories,
      mkInterp, insertKey, h1]
  · refine ⟨⟨[0, 1/10], [0, -5]⟩, ?_, -5, ?_, by norm_num⟩
    · simp [leavesOf, outC1, outValLeaves]
    · simp

/-- Claim C3, counterexample: the builder is not free of effects on its
input — on a Non-directional table holding the loss sample `-5`, the
in-place clamp rewrites the input's loss array, so the raw table differs
after the call. -/
theorem C3_counterexample :
    get_interpolation_functions true false 1 dfC3 = .ok (outC3, dfC3') ∧
    dfC3' ≠ dfC3 := by
  constructor
  · have h1 : lastCharKey "story0" = .ok 0 := rfl
    simp [get_interpolation_functions, dfC3, dfC3', outC3, totalCompCost,
      keysCost, classCost, sumMaxima, pyMax, computeFactor, buildTable,
      buildKeys, buildNonDirStories, mkInterp, insertKey, clampLoss, h1]
  · intro h
    simp [dfC3, dfC3'] at h

/-- Every interpolant the builder constructs is anchored: both stored
sequences start with the prepended zero (the loss zero is `0 * factor`). -/
theorem mkInterp_anchored (factor : ℚ) (e l : List ℚ) :
    anchoredInterp (mkInterp factor e l) := by
  constructor
  · rfl
  · simp [mkInterp]

/-- Invariant propagation through the directional story loop: if a
property holds of every interpolant the loop can construct and of the
accumulator, it holds of every stored interpolant. -/
theorem buildDirStories_all (factor : ℚ) (P : Interp → Prop)
    (hP : ∀ e l, P (mkInterp factor e l)) :
    ∀ (g : List (String × Leaf)) (acc out : List (Nat × Interp)),
      (∀ p ∈ acc, P p.2) →
      buildDirStories factor acc g = .ok out →
      ∀ p ∈ out, P p.2 := by
  intro g
  induction g with
  | nil =>
      intro acc out hacc h
      simp only [buildDirStories, Except.ok.injEq] at h
      subst h
      exact hacc
  | cons hd tl ih =>
      rcases hd with ⟨i, leaf⟩
      intro acc out hacc h
      simp only [buildDirStories] at h
      cases hk : lastCharKey i with
      | error e =>
          rw [hk] at h
          exact Except.noConfusion h
      | ok k =>
          rw [hk] at h
          refine ih _ _ ?_ h
          intro p hp
          rcases mem_insertKey hp with h1 | h1
          · rw [h1]
            exact hP leaf.edp leaf.loss
          · exact hacc p h1

/-- Invariant propagation through the Non-directional story loop; every
constructed interpolant is built from the clamped loss series. -/
theorem buildNonDirStories_all (factor : ℚ) (P : Interp → Prop)
    (hP : ∀ e l, P (mkInterp factor e (clampLoss l))) :
    ∀ (g : List (String × Leaf)) (acc out : List (Nat × Interp))
      (g' : List (String × Leaf)),
      (∀ p ∈ acc, P p.2) →
      buildNonDirStories factor acc g = .ok (out, g') →
      ∀ p ∈ out, P p.2 := by
  intro g
  induction g with
  | nil =>
      intro acc out g' hacc h
      simp only [buildNonDirStories, Except.ok.injEq, Prod.mk.injEq] at h
      rcases h with ⟨h1, h2⟩
      subst h1
      exact hacc
  | cons hd tl ih =>
      rcases hd with ⟨i, leaf⟩
      intro acc out g' hacc h
      cases hk : lastCharKey i with
      | error e =>
          simp only [buildNonDirStories, hk] at h
          exact Except.noConfusion h
      | ok k =>
          simp only [buildNonDirStories, hk] at h
          cases hrec : buildNonDirStories factor
              (insertKey acc k (mkInterp factor leaf.edp (clampLoss leaf.loss)))
              tl with
          | error e =>
              rw [hrec] at h
              exact Except.noConfusion h
          | ok pr =>
              rcases pr with ⟨o, r⟩
              rw [hrec] at h
              simp only [Except.ok.injEq, Prod.mk.injEq] at h
              rcases h with ⟨h1, h2⟩
              subst h1
              refine ih _ _ _ ?_ hrec
              intro p hp
              rcases mem_insertKey hp with h1 | h1
              · rw [h1]
                exact hP leaf.edp leaf.loss
              · exact hacc p h1

/-- Invariant propagation through the direction loop of the directional
branch. -/
theorem buildDirs_all (factor : ℚ) (P : Interp → Prop)
    (hP : ∀ e l, P (mkInterp factor e l)) :
    ∀ (gs : List (String × List (String × Leaf)))
      (outGs : List (String × List (Nat × Interp))),
      buildDirs factor gs = .ok outGs →
      ∀ q ∈ outGs, ∀ p ∈ q.2, P p.2 := by
  intro gs
  induction gs with
  | nil =>
      intro outGs h
      simp only [buildDirs, Except.ok.injEq] at h
      subst h
      intro q hq
      exact absurd hq (List.not_mem_nil q)
  | cons hd tl ih =>
      rcases hd with ⟨x, st⟩
      intro outGs h
      simp only [buildDirs] at h
      cases hst : buildDirStories factor [] st with
      | error e =>
          rw [hst] at h
          exact Except.noConfusion h
      | ok o =>
          rw [hst] at h
          cases hrest : buildDirs factor tl with
          | error e =>
              rw [hrest] at h
              exact Except.noConfusion h
          | ok rest' =>
              rw [hrest] at h
              simp only [Except.ok.injEq] at h
              subst h
              intro q hq
              rcases List.mem_cons.mp hq with h1 | h1
              · subst h1
                exact buildDirStories_all factor P hP st [] o
                  (by intro p hp; exact absurd hp (List.not_mem_nil p)) hst
              · exact ih rest' hrest q h1

/-- Invariant propagation through the demand-parameter-key loop of a
`"Non-directional"` class: every stored interpolant is built from a
clamped loss series. -/
theorem buildKeys_stories_all (factor : ℚ) (P : Interp → Prop)
    (hP : ∀ e l, P (mkInterp factor e (clampLoss l))) :
    ∀ (keys : List (String × EDPVal)) outKeys keys',
      buildKeys factor "Non-directional" keys = .ok (outKeys, keys') →
      ∀ q ∈ outKeys, ∀ itp ∈ outValLeaves q.2, P itp := by
  intro keys
  induction keys with
  | nil =>
      intro outKeys keys' h
      simp only [buildKeys, Except.ok.injEq, Prod.mk.injEq] at h
      rcases h with ⟨h1, h2⟩
      subst h1
      intro q hq
      exact absurd hq (List.not_mem_nil q)
  | cons hd tl ih =>
      rcases hd with ⟨key, v⟩
      intro outKeys keys' h
      cases v with
      | dirs g =>
          simp only [buildKeys, eq_self_iff_true, if_true] at h
          exact Except.noConfusion h
      | stories g =>
          simp only [buildKeys, eq_self_iff_true, if_true] at h
          cases hb : buildNonDirStories factor [] g with
          | error e =>
              rw [hb] at h
              exact Except.noConfusion h
          | ok pr =>
              rcases pr with ⟨o, g2⟩
              rw [hb] at h
              cases hrest : buildKeys factor "Non-directional" tl with
              | error e =>
                  rw [hrest] at h
                  exact Except.noConfusion h
              | ok pr2 =>
                  rcases pr2 with ⟨oRest, rest2⟩
                  rw [hrest] at h
                  simp only [Except.ok.injEq, Prod.mk.injEq] at h
                  rcases h with ⟨h1, h2⟩
                  subst h1
                  intro q hq
                  rcases List.mem_cons.mp hq with h3 | h3
                  · subst h3
                    intro itp hitp
                    simp only [outValLeaves] at hitp
                    rcases List.mem_map.mp hitp with ⟨p, hp, hpe⟩
                    rw [← hpe]
                    exact buildNonDirStories_all factor P hP g [] o g2
                      (by intro p2 hp2; exact absurd hp2 (List.not_mem_nil p2))
                      hb p hp
                  · exact ih oRest rest2 hrest q h3

/-- Invariant propagation through the demand-parameter-key loop of a
directional class: every stored interpolant is built from the raw
(un-clamped) loss series. -/
theorem buildKeys_dir_all (factor : ℚ) (P : Interp → Prop)
    (hP : ∀ e l, P (mkInterp factor e l))
    (d : String) (hd : d ≠ "Non-directional") :
    ∀ (keys : List (String × EDPVal)) outKeys keys',
      buildKeys factor d keys = .ok (outKeys, keys') →
      ∀ q ∈ outKeys, ∀ itp ∈ outValLeaves q.2, P itp := by
  intro keys
  induction keys with
  | nil =>
      intro outKeys keys' h
      simp only [buildKeys, Except.ok.injEq, Prod.mk.injEq] at h
      rcases h with ⟨h1, h2⟩
      subst h1
      intro q hq
      exact absurd hq (List.not_mem_nil q)
  | cons hd' tl ih =>
      rcases hd' with ⟨key, v⟩
      intro outKeys keys' h
      cases v with
      | stories g =>
          simp only [buildKeys, if_neg hd] at h
          exact Except.noConfusion h
      | dirs g =>
          simp only [buildKeys, if_neg hd] at h
          cases hb : buildDirs factor g with
          | error e =>
              rw [hb] at h
              exact Except.noConfusion h
          | ok o =>
              rw [hb] at h
              cases hrest : buildKeys factor d tl with
              | error e =>
                  rw [hrest] at h
                  exact Except.noConfusion h
              | ok pr2 =>
                  rcases pr2 with ⟨oRest, rest2⟩
                  rw [hrest] at h
                  simp only [Except.ok.injEq, Prod.mk.injEq] at h
                  rcases h with ⟨h1, h2⟩
                  subst h1
                  intro q hq
                  rcases List.mem_cons.mp hq with h3 | h3
                  · subst h3
                    intro itp hitp
                    simp only [outValLeaves] at hitp
                    rcases List.mem_flatMap.mp hitp with ⟨q2, hq2, hitp2⟩
                    rcases List.mem_map.mp hitp2 with ⟨p, hp, hpe⟩
                    rw [← hpe]
                    exact buildDirs_all factor P hP g o hb q2 hq2 p hp
                  · exact ih oRest rest2 hrest q h3

/-- Invariant propagation through the whole construction phase, for all
stored interpolants. -/
theorem buildTable_all (factor : ℚ) (P : Interp → Prop)
    (hPd : ∀ e l, P (mkInterp factor e l)) :
    ∀ (df : DF) out df2,
      buildTable factor df = .ok (out, df2) →
      ∀ itp ∈ leavesOf out, P itp := by
  intro df
  induction df with
  | nil =>
      intro out df2 h
      simp only [buildTable, Except.ok.injEq, Prod.mk.injEq] at h
      rcases h with ⟨h1, h2⟩
      subst h1
      intro itp hitp
      exact absurd hitp (List.not_mem_nil itp)
  | cons hd tl ih =>
      rcases hd with ⟨d, keys⟩
      intro out df2 h
      simp only [buildTable] at h
      cases hb : buildKeys factor d keys with
      | error e =>
          rw [hb] at h
          exact Except.noConfusion h
      | ok pr =>
          rcases pr with ⟨oK, k2⟩
          rw [hb] at h
          cases hrest : buildTable factor tl with
          | error e =>
              rw [hrest] at h
              exact Except.noConfusion h
          | ok pr2 =>
              rcases pr2 with ⟨oR, r2⟩
              rw [hrest] at h
              simp only [Except.ok.injEq, Prod.mk.injEq] at h
              rcases h with ⟨h1, h2⟩
              subst h1
              intro itp hitp
              simp only [leavesOf, List.flatMap_cons, List.mem_append] at hitp
              rcases hitp with hitp | hitp
              · rcases List.mem_flatMap.mp hitp with ⟨q, hq, hitp2⟩
                by_cases hd2 : d = "Non-directional"
                · subst hd2
                  exact buildKeys_stories_all factor P
                    (fun e l => hPd e (clampLoss l)) keys oK k2 hb q hq itp hitp2
                · exact buildKeys_dir_all factor P hPd d hd2 keys oK k2 hb
                    q hq itp hitp2
              · exact ih oR r2 hrest itp hitp

/-- Invariant propagation through the whole construction phase, restricted
to the interpolants stored under `"Non-directional"` classes: those are
always built from clamped loss series. -/
theorem buildTable_nonDir_all (factor : ℚ) (P : Interp → Prop)
    (hP : ∀ e l, P (mkInterp factor e (clampLoss l))) :
    ∀ (df : DF) out df2,
      buildTable factor df = .ok (out, df2) →
      ∀ itp ∈ nonDirLeavesOf out, P itp := by
  intro df
  induction df with
  | nil =>
      intro out df2 h
      simp only [buildTable, Except.ok.injEq, Prod.mk.injEq] at h
      rcases h with ⟨h1, h2⟩
      subst h1
      intro itp hitp
      exact absurd hitp (List.not_mem_nil itp)
  | cons hd tl ih =>
      rcases hd with ⟨d, keys⟩
      intro out df2 h
      simp only [buildTable] at h
      cases hb : buildKeys factor d keys with
      | error e =>
          rw [hb] at h
          exact Except.noConfusion h
      | ok pr =>
          rcases pr with ⟨oK, k2⟩
          rw [hb] at h
          cases hrest : buildTable factor tl with
          | error e =>
              rw [hrest] at h
              exact Except.noConfusion h
          | ok pr2 =>
              rcases pr2 with ⟨oR, r2⟩
              rw [hrest] at h
              simp only [Except.ok.injEq, Prod.mk.injEq] at h
              rcases h with ⟨h1, h2⟩
              subst h1
              intro itp hitp
              simp only [nonDirLeavesOf, List.flatMap_cons, List.mem_append]
                at hitp
              rcases hitp with hitp | hitp
              · by_cases hd2 : d = "Non-directional"
                · subst hd2
                  simp only [if_pos rfl] at hitp
                  rcases List.mem_flatMap.mp hitp with ⟨q, hq, hitp2⟩
                  exact buildKeys_stories_all factor P hP keys oK k2 hb
                    q hq itp hitp2
                · simp only [if_neg hd2] at hitp
                  exact absurd hitp (List.not_mem_nil itp)
              · exact ih oR r2 hrest itp hitp

/-- Every interpolant stored by the legacy branch is anchored at
`(0, 0)`: a zero is prepended to both the EDP column and the loss
column. -/
theorem legacyBuild_anchored (df0 : List (String × List ℚ)) :
    ∀ (rows : List (String × List ℚ)) acc out,
      (∀ q ∈ acc, anchoredInterp q.2) →
      legacyBuild df0 acc rows = .ok out →
      ∀ q ∈ out, anchoredInterp q.2 := by
  intro rows
  induction rows with
  | nil =>
      intro acc out hacc h
      simp only [legacyBuild, Except.ok.injEq] at h
      subst h
      exact hacc
  | cons hd tl ih =>
      rcases hd with ⟨key, col⟩
      intro acc out hacc h
      by_cases hE : startsWithE key = true
      · rw [legacyBuild, if_pos hE] at h
        cases hc : componentType key with
        | error e =>
            rw [hc] at h
            exact Except.noConfusion h
        | ok comp =>
            simp only [hc] at h
            cases hm : (match lookupKey df0 (strTakeRight key 3 ++ "_" ++ comp)
                with
                | some c => some c
                | none => lookupKey df0 (strTakeRight key 3)) with
            | none =>
                rw [hm] at h
                exact Except.noConfusion h
            | some edpCol =>
                rw [hm] at h
                refine ih _ _ ?_ h
                intro q hq
                rcases mem_insertKey hq with h1 | h1
                · rw [h1]
                  exact ⟨rfl, rfl⟩
                · exact hacc q h1
      · rw [legacyBuild, if_neg hE] at h
        exact ih _ _ hacc h

/-- Claim C5: on both variants, a zero sample is prepended to the demand
and the loss sequence of every leaf before the interpolant is built, so
every stored interpolant's domain begins at demand 0 with loss 0,
whatever the raw data contained. -/
theorem C5_zero_anchor (flag3d normalize : Bool) (repl : ℚ) (df : DF)
    (out : OutTable) (df2 : DF) (ldf : List (String × List ℚ))
    (lout : List (String × Interp))
    (h : get_interpolation_functions flag3d normalize repl df = .ok (out, df2))
    (hl : legacy_interpolation ldf = .ok lout) :
    (∀ itp ∈ leavesOf out, anchoredInterp itp) ∧
    (∀ q ∈ lout, anchoredInterp q.2) := by
  constructor
  · cases ht : totalCompCost flag3d df with
    | error e =>
        unfold get_interpolation_functions at h
        rw [ht] at h
        exact Except.noConfusion h
    | ok t =>
        unfold get_interpolation_functions at h
        simp only [ht] at h
        cases hf : computeFactor normalize repl t with
        | error e =>
            rw [hf] at h
            exact Except.noConfusion h
        | ok factor =>
            simp only [hf] at h
            exact buildTable_all factor anchoredInterp
              (mkInterp_anchored factor) df out df2 h
  · unfold legacy_interpolation at hl
    exact legacyBuild_anchored ldf ldf [] lout
      (by intro q hq; exact absurd hq (List.not_mem_nil q)) hl

/-- Witness for C5 at a concrete structured input and a concrete legacy
input. -/
theorem C5_witness :
    anchoredInterp (⟨[0, 1/10], [0, 0]⟩ : Interp) ∧
    anchoredInterp (⟨[0, 3], [0, 7]⟩ : Interp) := by
  have hb : get_interpolation_functions true false 1 dfC2 =
      .ok ([("Non-directional",
             [("PFA_NS", OutVal.stories [(0, ⟨[0, 1/10], [0, 0]⟩)])])],
           dfC2) := by
    have h1 : lastCharKey "story0" = .ok 0 := rfl
    simp [get_interpolation_functions, dfC2, totalCompCost, keysCost,
      classCost, sumMaxima, pyMax, computeFactor, buildTable, buildKeys,
      buildNonDirStories, mkInterp, insertKey, clampLoss, h1]
  have hl : legacy_interpolation [("E_NS_PFA", [7]), ("PFA", [3])] =
      .ok [("PFA_NS", ⟨[0, 3], [0, 7]⟩)] := rfl
  have h := C5_zero_anchor true false 1 dfC2 _ dfC2 _ _ hb hl
  refine ⟨h.1 _ ?_, h.2 ("PFA_NS", ⟨[0, 3], [0, 7]⟩) ?_⟩
  · simp [leavesOf, outValLeaves]
  · simp

/-- Claim C1, amended: the clamp-to-zero step is applied only in the
Non-directional branch — every interpolant stored under a
`"Non-directional"` class is built exclusively from clamped (hence
non-negative) loss samples, each stored loss value being such a sample
times the factor.  (Directional classes receive no clamping; see the
counterexample.) -/
theorem C1_clamp_nondirectional_only (flag3d normalize : Bool)
    (repl t factor : ℚ) (df : DF) (out : OutTable) (df2 : DF)
    (ht : totalCompCost flag3d df = .ok t)
    (hf : computeFactor normalize repl t = .ok factor)
    (h : get_interpolation_functions flag3d normalize repl df =
      .ok (out, df2)) :
    ∀ itp ∈ nonDirLeavesOf out, ∀ y ∈ itp.ys,
      ∃ c, 0 ≤ c ∧ y = c * factor := by
  have hb : buildTable factor df = .ok (out, df2) := by
    unfold get_interpolation_functions at h
    simp only [ht] at h
    simp only [hf] at h
    exact h
  refine buildTable_nonDir_all factor
    (fun itp => ∀ y ∈ itp.ys, ∃ c, 0 ≤ c ∧ y = c * factor)
    ?_ df out df2 hb
  intro e l y hy
  simp only [mkInterp] at hy
  rcases List.mem_map.mp hy with ⟨c, hc, hce⟩
  refine ⟨c, ?_, hce.symm⟩
  rcases List.mem_cons.mp hc with h1 | h1
  · rw [h1]
  · exact clampLoss_nonneg h1

/-- Witness for the amended C1 at a concrete input whose Non-directional
loss sample is negative. -/
theorem C1_witness : ∃ c : ℚ, 0 ≤ c ∧ (0 : ℚ) = c * 1 := by
  have ht : totalCompCost true dfC3 = .ok (-5) := by
    simp [totalCompCost, keysCost, classCost, sumMaxima, pyMax, dfC3]
  have hb : get_interpolation_functions true false 1 dfC3 =
      .ok (outC3, dfC3') := by
    have h1 : lastCharKey "story0" = .ok 0 := rfl
    simp [get_interpolation_functions, dfC3, dfC3', outC3, totalCompCost,
      keysCost, classCost, sumMaxima, pyMax, computeFactor, buildTable,
      buildKeys, buildNonDirStories, mkInterp, insertKey, clampLoss, h1]
  refine C1_clamp_nondirectional_only true false 1 (-5) 1 dfC3 outC3 dfC3'
    ht rfl hb ⟨[0, 1/10], [0, 0]⟩ ?_ 0 ?_
  · simp [nonDirLeavesOf, outC3, outValLeaves]
  · simp

/-- When every loss sample of a Non-directional story map is
non-negative, the in-place clamp leaves the raw story map unchanged. -/
theorem buildNonDirStories_pure (factor : ℚ) :
    ∀ (g : List (String × Leaf)) acc out g',
      (∀ p ∈ g, leafNonneg p.2 = true) →
      buildNonDirStories factor acc g = .ok (out, g') →
      g' = g := by
  intro g
  induction g with
  | nil =>
      intro acc out g' hg h
      simp only [buildNonDirStories, Except.ok.injEq, Prod.mk.injEq] at h
      exact h.2.symm
  | cons hd tl ih =>
      rcases hd with ⟨i, leaf⟩
      intro acc out g' hg h
      cases hk : lastCharKey i with
      | error e =>
          simp only [buildNonDirStories, hk] at h
          exact Except.noConfusion h
      | ok k =>
          simp only [buildNonDirStories, hk] at h
          cases hrec : buildNonDirStories factor
              (insertKey acc k (mkInterp factor leaf.edp (clampLoss leaf.loss)))
              tl with
          | error e =>
              rw [hrec] at h
              exact Except.noConfusion h
          | ok pr =>
              rcases pr with ⟨o, r⟩
              rw [hrec] at h
              simp only [Except.ok.injEq, Prod.mk.injEq] at h
              rcases h with ⟨h1, h2⟩
              have hr : r = tl :=
                ih _ _ _ (fun p hp => hg p (List.mem_cons_of_mem _ hp)) hrec
              have hleaf : clampLoss leaf.loss = leaf.loss := by
                apply clampLoss_of_nonneg
                intro y hy
                have h3 := hg (i, leaf) (List.mem_cons_self _ _)
                simp only [leafNonneg, List.all_eq_true] at h3
                exact of_decide_eq_true (h3 y hy)
              rw [← h2, hr, hleaf]

/-- The demand-parameter-key loop of a `"Non-directional"` class leaves
the class's raw data unchanged when all its loss samples are
non-negative. -/
theorem buildKeys_pure_nondir (factor : ℚ) :
    ∀ (keys : List (String × EDPVal)) outKeys keys',
      (∀ q ∈ keys, edpValNonneg q.2 = true) →
      buildKeys factor "Non-directional" keys = .ok (outKeys, keys') →
      keys' = keys := by
  intro keys
  induction keys with
  | nil =>
      intro outKeys keys' hq h
      simp only [buildKeys, Except.ok.injEq, Prod.mk.injEq] at h
      exact h.2.symm
  | cons hd tl ih =>
      rcases hd with ⟨key, v⟩
      intro outKeys keys' hq h
      cases v with
      | dirs g =>
          simp only [buildKeys, eq_self_iff_true, if_true] at h
          exact Except.noConfusion h
      | stories g =>
          simp only [buildKeys, eq_self_iff_true, if_true] at h
          cases hb : buildNonDirStories factor [] g with
          | error e =>
              rw [hb] at h
              exact Except.noConfusion h
          | ok pr =>
              rcases pr with ⟨o, g2⟩
              rw [hb] at h
              cases hrest : buildKeys factor "Non-directional" tl with
              | error e =>
                  rw [hrest] at h
                  exact Except.noConfusion h
              | ok pr2 =>
                  rcases pr2 with ⟨oRest, rest2⟩
                  rw [hrest] at h
                  simp only [Except.ok.injEq, Prod.mk.injEq] at h
                  rcases h with ⟨h1, h2⟩
                  have hg2 : g2 = g := by
                    refine buildNonDirStories_pure factor g [] o g2 ?_ hb
                    intro p hp
                    have h3 := hq (key, .stories g) (List.mem_cons_self _ _)
                    simp only [edpValNonneg, List.all_eq_true] at h3
                    exact h3 p hp
                  have hr : rest2 = tl :=
                    ih _ _ (fun q hq2 => hq q (List.mem_cons_of_mem _ hq2))
                      hrest
                  rw [← h2, hg2, hr]

/-- The demand-parameter-key loop of a directional class never touches
the raw data. -/
theorem buildKeys_pure_dir (factor : ℚ) (d : String)
    (hd : d ≠ "Non-directional") :
    ∀ (keys : List (String × EDPVal)) outKeys keys',
      buildKeys factor d keys = .ok (outKeys, keys') →
      keys' = keys := by
  intro keys
  induction keys with
  | nil =>
      intro outKeys keys' h
      simp only [buildKeys, Except.ok.injEq, Prod.mk.injEq] at h
      exact h.2.symm
  | cons hd' tl ih =>
      rcases hd' with ⟨key, v⟩
      intro outKeys keys' h
      cases v with
      | stories g =>
          simp only [buildKeys, if_neg hd] at h
          exact Except.noConfusion h
      | dirs g =>
          simp only [buildKeys, if_neg hd] at h
          cases hb : buildDirs factor g with
          | error e =>
              rw [hb] at h
              exact Except.noConfusion h
          | ok o =>
              rw [hb] at h
              cases hrest : buildKeys factor d tl with
              | error e =>
                  rw [hrest] at h
                  exact Except.noConfusion h
              | ok pr2 =>
                  rcases pr2 with ⟨oRest, rest2⟩
                  rw [hrest] at h
                  simp only [Except.ok.injEq, Prod.mk.injEq] at h
                  rcases h with ⟨h1, h2⟩
                  have hr : rest2 = tl := ih _ _ hrest
                  rw [← h2, hr]

/-- The construction phase returns the raw table unchanged when every
Non-directional loss sample is non-negative. -/
theorem buildTable_pure (factor : ℚ) :
    ∀ (df : DF) out df2,
      dfNonDirNonneg df = true →
      buildTable factor df = .ok (out, df2) →
      df2 = df := by
  intro df
  induction df with
  | nil =>
      intro out df2 hnn h
      simp only [buildTable, Except.ok.injEq, Prod.mk.injEq] at h
      exact h.2.symm
  | cons hd tl ih =>
      rcases hd with ⟨d, keys⟩
      intro out df2 hnn h
      simp only [dfNonDirNonneg, List.all_cons, Bool.and_eq_true] at hnn
      simp only [buildTable] at h
      cases hb : buildKeys factor d keys with
      | error e =>
          rw [hb] at h
          exact Except.noConfusion h
      | ok pr =>
          rcases pr with ⟨oK, k2⟩
          rw [hb] at h
          cases hrest : buildTable factor tl with
          | error e =>
              rw [hrest] at h
              exact Except.noConfusion h
          | ok pr2 =>
              rcases pr2 with ⟨oR, r2⟩
              rw [hrest] at h
              simp only [Except.ok.injEq, Prod.mk.injEq] at h
              rcases h with ⟨h1, h2⟩
              have hr : r2 = tl := by
                refine ih oR r2 ?_ hrest
                simp only [dfNonDirNonneg]
                exact hnn.2
              have hk2 : k2 = keys := by
                by_cases hd2 : d = "Non-directional"
                · subst hd2
                  refine buildKeys_pure_nondir factor keys oK k2 ?_ hb
                  have h3 := hnn.1
                  rw [if_pos rfl] at h3
                  simp only [List.all_eq_true] at h3
                  exact h3
                · exact buildKeys_pure_dir factor d hd2 keys oK k2 hb
              rw [← h2, hr, hk2]

/-- Claim C3, amended: the builder does mutate its input — it clamps
negative Non-directional loss samples in place — but this is the only
effect; whenever every Non-directional loss sample is already
non-negative, the raw table is unchanged after the call. -/
theorem C3_pure_when_nonneg (flag3d normalize : Bool) (repl : ℚ)
    (df : DF) (out : OutTable) (df2 : DF)
    (hnn : dfNonDirNonneg df = true)
    (h : get_interpolation_functions flag3d normalize repl df =
      .ok (out, df2)) :
    df2 = df := by
  cases ht : totalCompCost flag3d df with
  | error e =>
      unfold get_interpolation_functions at h
      rw [ht] at h
      exact Except.noConfusion h
  | ok t =>
      unfold get_interpolation_functions at h
      simp only [ht] at h
      cases hf : computeFactor normalize repl t with
      | error e =>
          rw [hf] at h
          exact Except.noConfusion h
      | ok factor =>
          simp only [hf] at h
          exact buildTable_pure factor df out df2 hnn h

/-- Witness for the amended C3: on a concrete non-negative input the
builder hands the raw table back unchanged. -/
theorem C3_witness : dfC2 = dfC2 := by
  have hb : get_interpolation_functions true false 1 dfC2 =
      .ok ([("Non-directional",
             [("PFA_NS", OutVal.stories [(0, ⟨[0, 1/10], [0, 0]⟩)])])],
           dfC2) := by
    have h1 : lastCharKey "story0" = .ok 0 := rfl
    simp [get_interpolation_functions, dfC2, totalCompCost, keysCost,
      classCost, sumMaxima, pyMax, computeFactor, buildTable, buildKeys,
      buildNonDirStories, mkInterp, insertKey, clampLoss, h1]
  exact C3_pure_when_nonneg true false 1 dfC2 _ dfC2
    (by simp [dfNonDirNonneg, edpValNonneg, leafNonneg, dfC2]) hb

/-- Claim C4: with `normalize = true` and a nonzero aggregated total, the
factor is `replacement_cost / total`, so the total scaled by the factor
recovers the replacement cost; on the spec's two-story scenario
(`loss = [100, 200]` per story, `replacement_cost = 1000`) the factor is
`5/2` and the story-0 interpolant returns 500 at demand `0.02` and 0 at
demand 0. -/
theorem C4_normalization (flag3d : Bool) (repl t : ℚ) (df : DF)
    (ht : totalCompCost flag3d df = .ok t) (hne : t ≠ 0) :
    computeFactor true repl t = .ok (repl / t) ∧
    t * (repl / t) = repl ∧
    totalCompCost true dfC4 = .ok 400 ∧
    computeFactor true 1000 400 = .ok (5 / 2) ∧
    get_interpolation_functions true true 1000 dfC4 = .ok (outC4, dfC4) ∧
    interpEval itpC4 (2 / 100) = .ok 500 ∧
    interpEval itpC4 0 = .ok 0 := by
  refine ⟨?_, ?_, ?_, ?_, ?_, ?_, ?_⟩
  · simp [computeFactor, pyDiv, hne]
  · rw [mul_comm]
    exact div_mul_cancel₀ repl hne
  · norm_num [totalCompCost, dfC4, keysCost, classCost, sumMaxima, pyMax,
      max_def]
  · norm_num [computeFactor, pyDiv]
  · have h0 : lastCharKey "story0" = .ok 0 := rfl
    have h1 : lastCharKey "story1" = .ok 1 := rfl
    norm_num [get_interpolation_functions, dfC4, outC4, itpC4,
      totalCompCost, keysCost, classCost, sumMaxima, pyMax, computeFactor,
      pyDiv, buildTable, buildKeys, buildNonDirStories, mkInterp,
      insertKey, clampLoss, h0, h1, max_def]
  · norm_num [interpEval, itpC4, linInterp]
  · norm_num [interpEval, itpC4, linInterp]

/-- Witness for C4 at the spec's concrete scenario (`t = 400`). -/
theorem C4_witness :
    computeFactor true 1000 400 = .ok ((1000 : ℚ) / 400) ∧
    (400 : ℚ) * (1000 / 400) = 1000 ∧
    totalCompCost true dfC4 = .ok 400 ∧
    computeFactor true 1000 400 = .ok (5 / 2) ∧
    get_interpolation_functions true true 1000 dfC4 = .ok (outC4, dfC4) ∧
    interpEval itpC4 (2 / 100) = .ok 500 ∧
    interpEval itpC4 0 = .ok 0 :=
  C4_normalization true 1000 400 dfC4
    (by norm_num [totalCompCost, dfC4, keysCost, classCost, sumMaxima,
      pyMax, max_def])
    (by norm_num)

/-- Claim C7: in the total-cost aggregation, a directional class
contributes only its `"dir1"` data when `is_three_dimensional = false`
(its contribution is unchanged by any change to the rest of the direction
map, in particular to `"dir2"`), contributes `"dir1"` plus `"dir2"` when
`is_three_dimensional = true`, and a `"Non-directional"` class always
contributes the sum over every story/floor identifier, for either flag. -/
theorem C7_direction_gating (d : String) (hd : d ≠ "Non-directional")
    (g g2 : List (String × List (String × Leaf)))
    (s1 s2 : List (String × Leaf)) (a b : ℚ)
    (h1 : lookupKey g "dir1" = some s1)
    (h2 : lookupKey g "dir2" = some s2)
    (h1b : lookupKey g2 "dir1" = some s1)
    (ha : sumMaxima s1 = .ok a) (hb : sumMaxima s2 = .ok b)
    (g0 : List (String × Leaf)) (flag : Bool) :
    classCost false d (.dirs g) = .ok a ∧
    classCost false d (.dirs g2) = .ok a ∧
    classCost true d (.dirs g) = .ok (a + b) ∧
    classCost flag "Non-directional" (.stories g0) = sumMaxima g0 := by
  refine ⟨?_, ?_, ?_, ?_⟩
  · simp [classCost, hd, dirSum, h1, ha]
  · simp [classCost, hd, dirSum, h1b, ha]
  · simp [classCost, hd, dirSum, h1, h2, ha, hb]
  · simp [classCost]

/-- Witness for C7: concrete direction maps that agree on `"dir1"` and
differ on `"dir2"`. -/
theorem C7_witness :
    classCost false "Directional"
      (.dirs [("dir1", [("story1", ⟨[1], [10]⟩)]),
              ("dir2", [("story1", ⟨[1], [20]⟩)])]) = .ok 10 ∧
    classCost false "Directional"
      (.dirs [("dir1", [("story1", ⟨[1], [10]⟩)]),
              ("dir2", [("story1", ⟨[1], [999]⟩)])]) = .ok 10 ∧
    classCost true "Directional"
      (.dirs [("dir1", [("story1", ⟨[1], [10]⟩)]),
              ("dir2", [("story1", ⟨[1], [20]⟩)])]) = .ok (10 + 20) ∧
    classCost false "Non-directional"
      (.stories [("story0", ⟨[1], [7]⟩)]) =
      sumMaxima [("story0", ⟨[1], [7]⟩)] :=
  C7_direction_gating "Directional" (by simp)
    [("dir1", [("story1", ⟨[1], [10]⟩)]), ("dir2", [("story1", ⟨[1], [20]⟩)])]
    [("dir1", [("story1", ⟨[1], [10]⟩)]), ("dir2", [("story1", ⟨[1], [999]⟩)])]
    [("story1", ⟨[1], [10]⟩)] [("story1", ⟨[1], [20]⟩)] 10 20
    rfl rfl rfl
    (by simp [sumMaxima, pyMax]) (by simp [sumMaxima, pyMax])
    [("story0", ⟨[1], [7]⟩)] false

/-- The per-sample arithmetic of the legacy loader rewrite:
`v * (m/T) / m * (1/n)` collapses to `v / T / n` whenever the series
maximum `m` is nonzero. -/
theorem legacy_sample_eq (v m T n : ℚ) (hm : m ≠ 0) :
    v * (m / T) / m * (1 / n) = v / T / n := by
  rcases eq_or_ne T 0 with hT | hT
  · subst hT
    simp
  · rcases eq_or_ne n 0 with hn | hn
    · subst hn
      simp
    · field_simp
      ring

/-- Claim C8: the legacy loader rewrites each of the three loss series in
place as `series * (max(series)/max_total) / max(series) * (1/nstories)`
with `max_total` the sum of the three maxima — which, for nonzero series
maxima, is samplewise equal to `sample / max_total / nstories`. -/
theorem C8_legacy_loader_rewrite (n mPfa mS mNs : ℚ) (pfa s ns : List ℚ)
    (hPfa : pyMax pfa = .ok mPfa) (hS : pyMax s = .ok mS)
    (hNs : pyMax ns = .ok mNs)
    (hm1 : mPfa ≠ 0) (hm2 : mS ≠ 0) (hm3 : mNs ≠ 0) :
    provided_slf_legacy n pfa s ns =
      .ok (pfa.map (fun v =>
             v * (mPfa / (mS + mNs + mPfa)) / mPfa * (1 / n)),
           s.map (fun v => v * (mS / (mS + mNs + mPfa)) / mS * (1 / n)),
           ns.map (fun v =>
             v * (mNs / (mS + mNs + mPfa)) / mNs * (1 / n))) ∧
    provided_slf_legacy n pfa s ns =
      .ok (pfa.map (fun v => v / (mS + mNs + mPfa) / n),
           s.map (fun v => v / (mS + mNs + mPfa) / n),
           ns.map (fun v => v / (mS + mNs + mPfa) / n)) := by
  have hfirst : provided_slf_legacy n pfa s ns =
      .ok (pfa.map (fun v =>
             v * (mPfa / (mS + mNs + mPfa)) / mPfa * (1 / n)),
           s.map (fun v => v * (mS / (mS + mNs + mPfa)) / mS * (1 / n)),
           ns.map (fun v =>
             v * (mNs / (mS + mNs + mPfa)) / mNs * (1 / n))) := by
    simp [provided_slf_legacy, hPfa, hS, hNs]
  have e1 : (fun v : ℚ => v * (mPfa / (mS + mNs + mPfa)) / mPfa * (1 / n)) =
      fun v : ℚ => v / (mS + mNs + mPfa) / n :=
    funext fun v => legacy_sample_eq v mPfa (mS + mNs + mPfa) n hm1
  have e2 : (fun v : ℚ => v * (mS / (mS + mNs + mPfa)) / mS * (1 / n)) =
      fun v : ℚ => v / (mS + mNs + mPfa) / n :=
    funext fun v => legacy_sample_eq v mS (mS + mNs + mPfa) n hm2
  have e3 : (fun v : ℚ => v * (mNs / (mS + mNs + mPfa)) / mNs * (1 / n)) =
      fun v : ℚ => v / (mS + mNs + mPfa) / n :=
    funext fun v => legacy_sample_eq v mNs (mS + mNs + mPfa) n hm3
  refine ⟨hfirst, ?_⟩
  rw [hfirst, e1, e2, e3]

/-- Witness for C8 at a concrete legacy table with three stories worth of
data and `nstories = 2`. -/
theorem C8_witness :
    (provided_slf_legacy 2 [1, 2] [3] [4] =
      .ok ([1, 2].map (fun v =>
             v * ((2 : ℚ) / (3 + 4 + 2)) / 2 * (1 / 2)),
           [3].map (fun v => v * ((3 : ℚ) / (3 + 4 + 2)) / 3 * (1 / 2)),
           [4].map (fun v =>
             v * ((4 : ℚ) / (3 + 4 + 2)) / 4 * (1 / 2)))) ∧
    provided_slf_legacy 2 [1, 2] [3] [4] =
      .ok ([1, 2].map (fun v => v / ((3 : ℚ) + 4 + 2) / 2),
           [3].map (fun v => v / ((3 : ℚ) + 4 + 2) / 2),
           [4].map (fun v => v / ((3 : ℚ) + 4 + 2) / 2)) :=
  C8_legacy_loader_rewrite 2 2 3 4 [1, 2] [3] [4]
    (by norm_num [pyMax, max_def]) (by norm_num [pyMax])
    (by norm_num [pyMax]) (by norm_num) (by norm_num) (by norm_num)

/-- Processing entries none of which parses to the key `k` leaves the
`k` slot of the accumulator untouched (directional loop). -/
theorem buildDirStories_preserve (factor : ℚ) (k : Nat) :
    ∀ (g : List (String × Leaf)) acc out,
      (∀ p ∈ g, lastCharKey p.1 ≠ .ok k) →
      buildDirStories factor acc g = .ok out →
      lookupKey out k = lookupKey acc k := by
  intro g
  induction g with
  | nil =>
      intro acc out hg h
      simp only [buildDirStories, Except.ok.injEq] at h
      subst h
      rfl
  | cons hd tl ih =>
      rcases hd with ⟨i, leaf⟩
      intro acc out hg h
      cases hkj : lastCharKey i with
      | error e =>
          simp only [buildDirStories, hkj] at h
          exact Except.noConfusion h
      | ok kj =>
          simp only [buildDirStories, hkj] at h
          have hne : kj ≠ k := by
            intro hh
            exact hg (i, leaf) (List.mem_cons_self _ _) (by rw [hkj, hh])
          rw [ih _ out (fun p hp => hg p (List.mem_cons_of_mem _ hp)) h]
          exact lookupKey_insertKey_ne acc kj k _ (Ne.symm hne)

/-- The directional loop stores, under the parsed key of an entry that is
the unique entry parsing to that key, exactly that entry's interpolant. -/
theorem buildDirStories_lookup (factor : ℚ) (i : String) (leaf : Leaf)
    (k : Nat) :
    ∀ (g : List (String × Leaf)) acc out,
      buildDirStories factor acc g = .ok out →
      (i, leaf) ∈ g → lastCharKey i = .ok k →
      (∀ p ∈ g, lastCharKey p.1 = .ok k → p = (i, leaf)) →
      lookupKey out k = some (mkInterp factor leaf.edp leaf.loss) := by
  intro g
  induction g with
  | nil =>
      intro acc out h hmem hk huniq
      exact absurd hmem (List.not_mem_nil _)
  | cons hd tl ih =>
      rcases hd with ⟨j, l2⟩
      intro acc out h hmemg hk huniq
      cases hkj : lastCharKey j with
      | error e =>
          simp only [buildDirStories, hkj] at h
          exact Except.noConfusion h
      | ok kj =>
          simp only [buildDirStories, hkj] at h
          by_cases hmem : (i, leaf) ∈ tl
          · exact ih _ out h hmem hk
              (fun p hp hpk => huniq p (List.mem_cons_of_mem _ hp) hpk)
          · have hht : (j, l2) = (i, leaf) := by
              rcases List.mem_cons.mp hmemg with h1 | h1
              · exact h1.symm
              · exact absurd h1 hmem
            injection hht with hj hl
            subst hj
            subst hl
            rw [hk] at hkj
            injection hkj with hkj
            subst hkj
            have hrest : ∀ p ∈ tl, lastCharKey p.1 ≠ .ok k := by
              intro p hp hpk
              have h2 := huniq p (List.mem_cons_of_mem _ hp) hpk
              rw [h2] at hp
              exact hmem hp
            rw [buildDirStories_preserve factor k tl _ out hrest h]
            exact lookupKey_insertKey_self acc k _

/-- Processing entries none of which parses to the key `k` leaves the
`k` slot of the accumulator untouched (Non-directional loop). -/
theorem buildNonDirStories_preserve (factor : ℚ) (k : Nat) :
    ∀ (g : List (String × Leaf)) acc out g',
      (∀ p ∈ g, lastCharKey p.1 ≠ .ok k) →
      buildNonDirStories factor acc g = .ok (out, g') →
      lookupKey out k = lookupKey acc k := by
  intro g
  induction g with
  | nil =>
      intro acc out g' hg h
      simp only [buildNonDirStories, Except.ok.injEq, Prod.mk.injEq] at h
      rw [← h.1]
  | cons hd tl ih =>
      rcases hd with ⟨i, leaf⟩
      intro acc out g' hg h
      cases hkj : lastCharKey i with
      | error e =>
          simp only [buildNonDirStories, hkj] at h
          exact Except.noConfusion h
      | ok kj =>
          simp only [buildNonDirStories, hkj] at h
          cases hrec : buildNonDirStories factor
              (insertKey acc kj (mkInterp factor leaf.edp (clampLoss leaf.loss)))
              tl with
          | error e =>
              rw [hrec] at h
              exact Except.noConfusion h
          | ok pr =>
              rcases pr with ⟨o, r⟩
              rw [hrec] at h
              simp only [Except.ok.injEq, Prod.mk.injEq] at h
              rcases h with ⟨h1, h2⟩
              subst h1
              have hne : kj ≠ k := by
                intro hh
                exact hg (i, leaf) (List.mem_cons_self _ _) (by rw [hkj, hh])
              rw [ih _ o r (fun p hp => hg p (List.mem_cons_of_mem _ hp)) hrec]
              exact lookupKey_insertKey_ne acc kj k _ (Ne.symm hne)

/-- The Non-directional loop stores, under the parsed key of an entry
that is the unique entry parsing to that key, exactly that entry's
interpolant (built from the clamped loss series). -/
theorem buildNonDirStories_lookup (factor : ℚ) (i : String) (leaf : Leaf)
    (k : Nat) :
    ∀ (g : List (String × Leaf)) acc out g',
      buildNonDirStories factor acc g = .ok (out, g') →
      (i, leaf) ∈ g → lastCharKey i = .ok k →
      (∀ p ∈ g, lastCharKey p.1 = .ok k → p = (i, leaf)) →
      lookupKey out k =
        some (mkInterp factor leaf.edp (clampLoss leaf.loss)) := by
  intro g
  induction g with
  | nil =>
      intro acc out g' h hmem hk huniq
      exact absurd hmem (List.not_mem_nil _)
  | cons hd tl ih =>
      rcases hd with ⟨j, l2⟩
      intro acc out g' h hmemg hk huniq
      cases hkj : lastCharKey j with
      | error e =>
          simp only [buildNonDirStories, hkj] at h
          exact Except.noConfusion h
      | ok kj =>
          simp only [buildNonDirStories, hkj] at h
          cases hrec : buildNonDirStories factor
              (insertKey acc kj (mkInterp factor l2.edp (clampLoss l2.loss)))
              tl with
          | error e =>
              rw [hrec] at h
              exact Except.noConfusion h
          | ok pr =>
              rcases pr with ⟨o, r⟩
              rw [hrec] at h
              simp only [Except.ok.injEq, Prod.mk.injEq] at h
              rcases h with ⟨h1, h2⟩
              subst h1
              by_cases hmem : (i, leaf) ∈ tl
              · exact ih _ o r hrec hmem hk
                  (fun p hp hpk => huniq p (List.mem_cons_of_mem _ hp) hpk)
              · have hht : (j, l2) = (i, leaf) := by
                  rcases List.mem_cons.mp hmemg with h1 | h1
                  · exact h1.symm
                  · exact absurd h1 hmem
                injection hht with hj hl
                subst hj
                subst hl
                rw [hk] at hkj
                injection hkj with hkj
                subst hkj
                have hrest : ∀ p ∈ tl, lastCharKey p.1 ≠ .ok k := by
                  intro p hp hpk
                  have h3 := huniq p (List.mem_cons_of_mem _ hp) hpk
                  rw [h3] at hp
                  exact hmem hp
                rw [buildNonDirStories_preserve factor k tl _ o r hrest hrec]
                exact lookupKey_insertKey_self acc k _

/-- The direction loop preserves direction keys: the output direction map
holds, under each direction name of the raw map, the processed story
map. -/
theorem buildDirs_lookup (factor : ℚ) (x : String) :
    ∀ (gs : List (String × List (String × Leaf))) outGs g,
      buildDirs factor gs = .ok outGs →
      lookupKey gs x = some g →
      ∃ outG, buildDirStories factor [] g = .ok outG ∧
        lookupKey outGs x = some outG := by
  intro gs
  induction gs with
  | nil =>
      intro outGs g h hl
      simp only [lookupKey] at hl
      exact Option.noConfusion hl
  | cons hd tl ih =>
      rcases hd with ⟨x0, st⟩
      intro outGs g h hl
      simp only [buildDirs] at h
      cases hst : buildDirStories factor [] st with
      | error e =>
          rw [hst] at h
          exact Except.noConfusion h
      | ok o =>
          rw [hst] at h
          cases hrest : buildDirs factor tl with
          | error e =>
              rw [hrest] at h
              exact Except.noConfusion h
          | ok rest2 =>
              rw [hrest] at h
              simp only [Except.ok.injEq] at h
              subst h
              simp only [lookupKey] at hl
              by_cases hx : x0 = x
              · rw [if_pos hx] at hl
                injection hl with hl
                subst hl
                exact ⟨o, hst, by simp [lookupKey, hx]⟩
              · rw [if_neg hx] at hl
                rcases ih rest2 g hrest hl with ⟨outG, hh1, hh2⟩
                exact ⟨outG, hh1, by simp [lookupKey, hx, hh2]⟩

/-- The demand-parameter-key loop of a `"Non-directional"` class
preserves keys: under each key of the raw class there is the processed
story map. -/
theorem buildKeys_nondir_lookup (factor : ℚ) (key : String)
    (g : List (String × Leaf)) :
    ∀ (keys : List (String × EDPVal)) outKeys keys',
      buildKeys factor "Non-directional" keys = .ok (outKeys, keys') →
      lookupKey keys key = some (.stories g) →
      ∃ outG g2, buildNonDirStories factor [] g = .ok (outG, g2) ∧
        lookupKey outKeys key = some (.stories outG) := by
  intro keys
  induction keys with
  | nil =>
      intro outKeys keys' h hl
      simp only [lookupKey] at hl
      exact Option.noConfusion hl
  | cons hd tl ih =>
      rcases hd with ⟨key0, v⟩
      intro outKeys keys' h hl
      cases v with
      | dirs g0 =>
          simp only [buildKeys, eq_self_iff_true, if_true] at h
          exact Except.noConfusion h
      | stories g0 =>
          simp only [buildKeys, eq_self_iff_true, if_true] at h
          cases hb : buildNonDirStories factor [] g0 with
          | error e =>
              rw [hb] at h
              exact Except.noConfusion h
          | ok pr =>
              rcases pr with ⟨o, g2⟩
              rw [hb] at h
              cases hrest : buildKeys factor "Non-directional" tl with
              | error e =>
                  rw [hrest] at h
                  exact Except.noConfusion h
              | ok pr2 =>
                  rcases pr2 with ⟨oR, r2⟩
                  rw [hrest] at h
                  simp only [Except.ok.injEq, Prod.mk.injEq] at h
                  rcases h with ⟨h1, h2⟩
                  subst h1
                  simp only [lookupKey] at hl
                  by_cases hx : key0 = key
                  · rw [if_pos hx] at hl
                    injection hl with hl
                    injection hl with hl
                    subst hl
                    exact ⟨o, g2, hb, by simp [lookupKey, hx]⟩
                  · rw [if_neg hx] at hl
                    rcases ih oR r2 hrest hl with ⟨outG, g3, hh1, hh2⟩
                    exact ⟨outG, g3, hh1, by simp [lookupKey, hx, hh2]⟩

/-- The demand-parameter-key loop of a directional class preserves keys:
under each key of the raw class there is the processed direction map. -/
theorem buildKeys_dir_lookup (factor : ℚ) (d : String)
    (hd : d ≠ "Non-directional") (key : String)
    (gs : List (String × List (String × Leaf))) :
    ∀ (keys : List (String × EDPVal)) outKeys keys',
      buildKeys factor d keys = .ok (outKeys, keys') →
      lookupKey keys key = some (.dirs gs) →
      ∃ outGs, buildDirs factor gs = .ok outGs ∧
        lookupKey outKeys key = some (.dirs outGs) := by
  intro keys
  induction keys with
  | nil =>
      intro outKeys keys' h hl
      simp only [lookupKey] at hl
      exact Option.noConfusion hl
  | cons hd' tl ih =>
      rcases hd' with ⟨key0, v⟩
      intro outKeys keys' h hl
      cases v with
      | stories g0 =>
          simp only [buildKeys, if_neg hd] at h
          exact Except.noConfusion h
      | dirs g0 =>
          simp only [buildKeys, if_neg hd] at h
          cases hb : buildDirs factor g0 with
          | error e =>
              rw [hb] at h
              exact Except.noConfusion h
          | ok o =>
              rw [hb] at h
              cases hrest : buildKeys factor d tl with
              | error e =>
                  rw [hrest] at h
                  exact Except.noConfusion h
              | ok pr2 =>
                  rcases pr2 with ⟨oR, r2⟩
                  rw [hrest] at h
                  simp only [Except.ok.injEq, Prod.mk.injEq] at h
                  rcases h with ⟨h1, h2⟩
                  subst h1
                  simp only [lookupKey] at hl
                  by_cases hx : key0 = key
                  · rw [if_pos hx] at hl
                    injection hl with hl
                    injection hl with hl
                    subst hl
                    exact ⟨o, hb, by simp [lookupKey, hx]⟩
                  · rw [if_neg hx] at hl
                    rcases ih oR r2 hrest hl with ⟨outGs, hh1, hh2⟩
                    exact ⟨outGs, hh1, by simp [lookupKey, hx, hh2]⟩

/-- The construction phase preserves directionality-class keys: under
each class name of the raw table there is the processed class. -/
theorem buildTable_lookup (factor : ℚ) (d : String) :
    ∀ (df : DF) out df2 keys,
      buildTable factor df = .ok (out, df2) →
      lookupKey df d = some keys →
      ∃ outKeys keys', buildKeys factor d keys = .ok (outKeys, keys') ∧
        lookupKey out d = some outKeys := by
  intro df
  induction df with
  | nil =>
      intro out df2 keys h hl
      simp only [lookupKey] at hl
      exact Option.noConfusion hl
  | cons hd tl ih =>
      rcases hd with ⟨d0, keys0⟩
      intro out df2 keys h hl
      simp only [buildTable] at h
      cases hb : buildKeys factor d0 keys0 with
      | error e =>
          rw [hb] at h
          exact Except.noConfusion h
      | ok pr =>
          rcases pr with ⟨oK, k2⟩
          rw [hb] at h
          cases hrest : buildTable factor tl with
          | error e =>
              rw [hrest] at h
              exact Except.noConfusion h
          | ok pr2 =>
              rcases pr2 with ⟨oR, r2⟩
              rw [hrest] at h
              simp only [Except.ok.injEq, Prod.mk.injEq] at h
              rcases h with ⟨h1, h2⟩
              subst h1
              simp only [lookupKey] at hl
              by_cases hx : d0 = d
              · rw [if_pos hx] at hl
                injection hl with hl
                subst hl
                subst hx
                exact ⟨oK, k2, hb, by simp [lookupKey]⟩
              · rw [if_neg hx] at hl
                rcases ih oR r2 keys hrest hl with ⟨outKeys, keys', hh1, hh2⟩
                exact ⟨outKeys, keys', hh1, by simp [lookupKey, hx, hh2]⟩

/-- Claim C9: an entry keyed by a story/floor identifier whose last
character is a decimal digit is stored in, and retrievable from, the
output under the corresponding integer key, nested under the same
directionality class, demand-parameter key and (for directional classes)
direction; the stored interpolant is exactly the one built from that
entry's data (uniqueness of the trailing digit within the group rules out
the overwriting of claim C10). -/
theorem C9_identifier_roundtrip (flag3d normalize : Bool)
    (repl t factor : ℚ) (df : DF) (out : OutTable) (df2 : DF)
    (ht : totalCompCost flag3d df = .ok t)
    (hf : computeFactor normalize repl t = .ok factor)
    (h : get_interpolation_functions flag3d normalize repl df =
      .ok (out, df2))
    (keysN : List (String × EDPVal)) (keyN : String)
    (gN : List (String × Leaf)) (iN : String) (leafN : Leaf) (kN : Nat)
    (hN1 : lookupKey df "Non-directional" = some keysN)
    (hN2 : lookupKey keysN keyN = some (.stories gN))
    (hN3 : (iN, leafN) ∈ gN) (hN4 : lastCharKey iN = .ok kN)
    (hN5 : ∀ p ∈ gN, lastCharKey p.1 = .ok kN → p = (iN, leafN))
    (dD : String) (hD0 : dD ≠ "Non-directional")
    (keysD : List (String × EDPVal)) (keyD : String)
    (gsD : List (String × List (String × Leaf))) (xD : String)
    (gD : List (String × Leaf)) (iD : String) (leafD : Leaf) (kD : Nat)
    (hD1 : lookupKey df dD = some keysD)
    (hD2 : lookupKey keysD keyD = some (.dirs gsD))
    (hD3 : lookupKey gsD xD = some gD)
    (hD4 : (iD, leafD) ∈ gD) (hD5 : lastCharKey iD = .ok kD)
    (hD6 : ∀ p ∈ gD, lastCharKey p.1 = .ok kD → p = (iD, leafD)) :
    (∃ outKeys outG, lookupKey out "Non-directional" = some outKeys ∧
       lookupKey outKeys keyN = some (.stories outG) ∧
       lookupKey outG kN =
         some (mkInterp factor leafN.edp (clampLoss leafN.loss))) ∧
    (∃ outKeys outGs outG, lookupKey out dD = some outKeys ∧
       lookupKey outKeys keyD = some (.dirs outGs) ∧
       lookupKey outGs xD = some outG ∧
       lookupKey outG kD =
         some (mkInterp factor leafD.edp leafD.loss)) := by
  have hb : buildTable factor df = .ok (out, df2) := by
    unfold get_interpolation_functions at h
    simp only [ht] at h
    simp only [hf] at h
    exact h
  constructor
  · rcases buildTable_lookup factor "Non-directional" df out df2 keysN hb
      hN1 with ⟨outKeys, keys', hk1, hk2⟩
    rcases buildKeys_nondir_lookup factor keyN gN keysN outKeys keys' hk1
      hN2 with ⟨outG, g2, hg1, hg2⟩
    refine ⟨outKeys, outG, hk2, hg2, ?_⟩
    exact buildNonDirStories_lookup factor iN leafN kN gN [] outG g2 hg1
      hN3 hN4 hN5
  · rcases buildTable_lookup factor dD df out df2 keysD hb hD1 with
      ⟨outKeys, keys', hk1, hk2⟩
    rcases buildKeys_dir_lookup factor dD hD0 keyD gsD keysD outKeys keys'
      hk1 hD2 with ⟨outGs, hg1, hg2⟩
    rcases buildDirs_lookup factor xD gsD outGs gD hg1 hD3 with
      ⟨outG, hs1, hs2⟩
    refine ⟨outKeys, outGs, outG, hk2, hg2, hs2, ?_⟩
    exact buildDirStories_lookup factor iD leafD kD gD [] outG hs1 hD4
      hD5 hD6

/-- Witness for C9 on a concrete table holding one Non-directional entry
`"story3"` and one directional entry `"story4"` under `"dir1"`. -/
theorem C9_witness :
    (∃ outKeys outG,
       lookupKey
         [("Non-directional",
           [("PFA_NS", OutVal.stories [(3, ⟨[0, 1], [0, 7]⟩)])]),
          ("Directional",
           [("IDR", OutVal.dirs [("dir1", [(4, ⟨[0, 2], [0, 9]⟩)])])])]
         "Non-directional" = some outKeys ∧
       lookupKey outKeys "PFA_NS" = some (.stories outG) ∧
       lookupKey outG 3 =
         some (mkInterp 1 [1] (clampLoss [7]))) ∧
    (∃ outKeys outGs outG,
       lookupKey
         [("Non-directional",
           [("PFA_NS", OutVal.stories [(3, ⟨[0, 1], [0, 7]⟩)])]),
          ("Directional",
           [("IDR", OutVal.dirs [("dir1", [(4, ⟨[0, 2], [0, 9]⟩)])])])]
         "Directional" = some outKeys ∧
       lookupKey outKeys "IDR" = some (.dirs outGs) ∧
       lookupKey outGs "dir1" = some outG ∧
       lookupKey outG 4 = some (mkInterp 1 [2] [9])) := by
  have h3 : lastCharKey "story3" = .ok 3 := rfl
  have h4 : lastCharKey "story4" = .ok 4 := rfl
  have hne : ("Directional" = "Non-directional") = False := by simp
  have ht : totalCompCost false
      [("Non-directional",
        [("PFA_NS", EDPVal.stories [("story3", ⟨[1], [7]⟩)])]),
       ("Directional",
        [("IDR", EDPVal.dirs [("dir1", [("story4", ⟨[2], [9]⟩)])])])] =
      .ok 16 := by
    norm_num [totalCompCost, keysCost, classCost, dirSum, sumMaxima,
      pyMax, lookupKey, hne]
  have hb : get_interpolation_functions false false 1
      [("Non-directional",
        [("PFA_NS", EDPVal.stories [("story3", ⟨[1], [7]⟩)])]),
       ("Directional",
        [("IDR", EDPVal.dirs [("dir1", [("story4", ⟨[2], [9]⟩)])])])] =
      .ok ([("Non-directional",
             [("PFA_NS", OutVal.stories [(3, ⟨[0, 1], [0, 7]⟩)])]),
            ("Directional",
             [("IDR", OutVal.dirs [("dir1", [(4, ⟨[0, 2], [0, 9]⟩)])])])],
           [("Non-directional",
             [("PFA_NS", EDPVal.stories [("story3", ⟨[1], [7]⟩)])]),
            ("Directional",
             [("IDR", EDPVal.dirs
               [("dir1", [("story4", ⟨[2], [9]⟩)])])])]) := by
    norm_num [get_interpolation_functions, totalCompCost, keysCost,
      classCost, dirSum, sumMaxima, pyMax, lookupKey, computeFactor,
      buildTable, buildKeys, buildDirs, buildDirStories,
      buildNonDirStories, mkInterp, insertKey, clampLoss, h3, h4, hne]
  exact C9_identifier_roundtrip false false 1 16 1 _ _ _ ht rfl hb
    [("PFA_NS", EDPVal.stories [("story3", ⟨[1], [7]⟩)])] "PFA_NS"
    [("story3", ⟨[1], [7]⟩)] "story3" ⟨[1], [7]⟩ 3
    rfl rfl (by simp) h3
    (by intro p hp hpk; simpa using hp)
    "Directional" (by simp)
    [("IDR", EDPVal.dirs [("dir1", [("story4", ⟨[2], [9]⟩)])])] "IDR"
    [("dir1", [("story4", ⟨[2], [9]⟩)])] "dir1"
    [("story4", ⟨[2], [9]⟩)] "story4" ⟨[2], [9]⟩ 4
    rfl rfl rfl (by simp) h4
    (by intro p hp hpk; simpa using hp)
